import Mathlib

/-!
Verification of the three solutions in this repository:

* `Solution::guessNumber` (374.猜数字大小.cpp) — binary search against a
  comparison oracle, embedded exactly over `ℤ` (the C `long` values stay far
  from 64-bit wrap-around, which is proved separately).
* `Solution::mySqrt` (69.sqrt-x.cpp) — Newton iteration on a C `double`,
  embedded with exact rational arithmetic (`ℚ`); the literal `0.1` is the
  rational `1/10`.
* `Solution::arrangeCoins` (441.排列硬币.cpp) — quadratic-formula estimate via
  the C `sqrt` plus a decrement loop; the real square root composed with the
  truncations of the source expression is embedded through `Nat.sqrt`.
-/

/-! ### LeetCode 374, `Solution::guessNumber`

Source:
```
long left=1,right=n,c=(left+right+1)/2;
int g=guess(c);
while(g!=0) {
  if(g==1)       { left=c+1; c=(left+right+1)/2; }
  else if(g==-1) { right=c-1; c=(left+right+1)/2; }
  g=guess(c);
}
return c;
```
The state is the pair `(left, right)`; the candidate `c` always equals
`(left+right+1)/2`, both initially and immediately after each update.
-/

/-- The guess API for secret `s`: `guess(c)` returns `1` when the secret is
greater than the candidate `c`, `-1` when it is smaller, and `0` on a hit. -/
def guessOracle (s c : ℤ) : ℤ :=
  if c < s then 1 else if s < c then -1 else 0

/-- The candidate the code keeps in `c`: `(left + right + 1) / 2`. All values
are positive, so C truncating division agrees with this division. -/
def cOf (lr : ℤ × ℤ) : ℤ := (lr.1 + lr.2 + 1) / 2

/-- One iteration of the `while (g != 0)` loop: on `g == 1` set `left = c+1`,
on `g == -1` set `right = c-1` (the candidate is recomputed by `cOf`); when
`g == 0` the loop exits, modelled as a fixed state. -/
def guessStep (s : ℤ) (lr : ℤ × ℤ) : ℤ × ℤ :=
  if guessOracle s (cOf lr) = 1 then (cOf lr + 1, lr.2)
  else if guessOracle s (cOf lr) = -1 then (lr.1, cOf lr - 1)
  else lr

/-- The successive `(left, right)` states of `guessNumber(n)` run against the
oracle for secret `s`, starting from `left = 1, right = n`. -/
def guessSeq (n s : ℤ) : ℕ → ℤ × ℤ
  | 0 => (1, n)
  | k + 1 => guessStep s (guessSeq n s k)

/-- Result of `Solution::guessNumber` for upper bound `n` and secret `s`.
For a secret in `[1, n]` the loop hits the secret within `n.toNat` iterations
and the state is fixed from that point on, so running `n.toNat` steps returns
the very candidate at which `guess` returned `0`. -/
def guessNumber (n s : ℤ) : ℤ := cOf (guessSeq n s n.toNat)

theorem guessStep_eq (s : ℤ) (lr : ℤ × ℤ) :
    guessStep s lr =
      if cOf lr < s then (cOf lr + 1, lr.2)
      else if s < cOf lr then (lr.1, cOf lr - 1)
      else lr := by
  unfold guessStep guessOracle
  split_ifs <;> first | rfl | contradiction

theorem guessOracle_eq_zero {s c : ℤ} (h : guessOracle s c = 0) : c = s := by
  unfold guessOracle at h
  split_ifs at h <;> omega

theorem guessStep_inv (n s : ℤ) (lr : ℤ × ℤ)
    (h : 1 ≤ lr.1 ∧ lr.1 ≤ s ∧ s ≤ lr.2 ∧ lr.2 ≤ n) :
    1 ≤ (guessStep s lr).1 ∧ (guessStep s lr).1 ≤ s ∧
      s ≤ (guessStep s lr).2 ∧ (guessStep s lr).2 ≤ n := by
  obtain ⟨h1, h2, h3, h4⟩ := h
  rw [guessStep_eq]
  have hc : lr.1 ≤ cOf lr ∧ cOf lr ≤ lr.2 := by
    unfold cOf; constructor <;> omega
  rcases lt_trichotomy (cOf lr) s with h | h | h
  · rw [if_pos h]; exact ⟨by omega, by omega, h3, h4⟩
  · rw [if_neg (by omega), if_neg (by omega)]; exact ⟨h1, h2, h3, h4⟩
  · rw [if_neg (by omega), if_pos h]; exact ⟨h1, h2, by omega, by omega⟩

theorem guessSeq_inv (n s : ℤ) (h1 : 1 ≤ s) (h2 : s ≤ n) (k : ℕ) :
    1 ≤ (guessSeq n s k).1 ∧ (guessSeq n s k).1 ≤ s ∧
      s ≤ (guessSeq n s k).2 ∧ (guessSeq n s k).2 ≤ n := by
  induction k with
  | zero => exact ⟨le_refl 1, h1, h2, le_refl n⟩
  | succ k ih => exact guessStep_inv n s (guessSeq n s k) ih

theorem guessSeq_progress (n s : ℤ) (h1 : 1 ≤ s) (h2 : s ≤ n) :
    ∀ m j, ((guessSeq n s j).2 - (guessSeq n s j).1).toNat < 2 ^ m →
      ∃ i, i ≤ m ∧ guessOracle s (cOf (guessSeq n s (j + i))) = 0 := by
  intro m
  induction m with
  | zero =>
    intro j hj
    obtain ⟨hl1, hls, hsr, hrn⟩ := guessSeq_inv n s h1 h2 j
    refine ⟨0, le_refl 0, ?_⟩
    rw [Nat.add_zero]
    have hc : cOf (guessSeq n s j) = s := by
      simp only [pow_zero, Nat.lt_one_iff] at hj
      unfold cOf
      omega
    rw [hc]
    unfold guessOracle
    simp
  | succ m ih =>
    intro j hj
    obtain ⟨hl1, hls, hsr, hrn⟩ := guessSeq_inv n s h1 h2 j
    have hpow : (2 : ℕ) ^ (m + 1) = 2 ^ m + 2 ^ m := by ring
    rw [hpow] at hj
    rcases lt_trichotomy (cOf (guessSeq n s j)) s with h | h | h
    · -- oracle returns 1; left moves to c+1
      have hstep : guessSeq n s (j + 1) = (cOf (guessSeq n s j) + 1, (guessSeq n s j).2) := by
        show guessStep s (guessSeq n s j) = _
        rw [guessStep_eq, if_pos h]
      have hfst : (guessSeq n s (j + 1)).1 = cOf (guessSeq n s j) + 1 := by rw [hstep]
      have hsnd : (guessSeq n s (j + 1)).2 = (guessSeq n s j).2 := by rw [hstep]
      have hsz : ((guessSeq n s (j + 1)).2 - (guessSeq n s (j + 1)).1).toNat < 2 ^ m := by
        rw [hfst, hsnd]
        unfold cOf at *
        omega
      obtain ⟨i, hi, hor⟩ := ih (j + 1) hsz
      refine ⟨i + 1, by omega, ?_⟩
      have hidx : j + (i + 1) = j + 1 + i := by omega
      rw [hidx]
      exact hor
    · refine ⟨0, by omega, ?_⟩
      rw [Nat.add_zero, h]
      unfold guessOracle
      simp
    · -- oracle returns -1; right moves to c-1
      have hstep : guessSeq n s (j + 1) = ((guessSeq n s j).1, cOf (guessSeq n s j) - 1) := by
        show guessStep s (guessSeq n s j) = _
        rw [guessStep_eq, if_neg (by omega), if_pos h]
      have hfst : (guessSeq n s (j + 1)).1 = (guessSeq n s j).1 := by rw [hstep]
      have hsnd : (guessSeq n s (j + 1)).2 = cOf (guessSeq n s j) - 1 := by rw [hstep]
      have hsz : ((guessSeq n s (j + 1)).2 - (guessSeq n s (j + 1)).1).toNat < 2 ^ m := by
        rw [hfst, hsnd]
        unfold cOf at *
        omega
      obtain ⟨i, hi, hor⟩ := ih (j + 1) hsz
      refine ⟨i + 1, by omega, ?_⟩
      have hidx : j + (i + 1) = j + 1 + i := by omega
      rw [hidx]
      exact hor

theorem guess_halts (n s : ℤ) (h1 : 1 ≤ s) (h2 : s ≤ n) :
    ∃ k, k ≤ (n - 1).toNat ∧ guessOracle s (cOf (guessSeq n s k)) = 0 := by
  have h0 : ((guessSeq n s 0).2 - (guessSeq n s 0).1).toNat < 2 ^ (n - 1).toNat := by
    show (n - 1).toNat < 2 ^ (n - 1).toNat
    exact Nat.lt_two_pow _
  obtain ⟨i, hi, hor⟩ := guessSeq_progress n s h1 h2 (n - 1).toNat 0 h0
  exact ⟨i, hi, by rw [Nat.zero_add] at hor; exact hor⟩

theorem guessSeq_frozen (n s : ℤ) (k : ℕ)
    (h : guessOracle s (cOf (guessSeq n s k)) = 0) :
    ∀ i, guessSeq n s (k + i) = guessSeq n s k := by
  intro i
  induction i with
  | zero => rfl
  | succ i ih =>
    show guessStep s (guessSeq n s (k + i)) = _
    rw [ih]
    unfold guessStep
    rw [h]
    simp

/-! ### LeetCode 69, `Solution::mySqrt`

Source:
```
double a=1+x/2;
while(a*a>x+0.1)
{
    a=(a+x/a)/2;
}
return int(a);
```
`x/2` is C integer division. The `double` arithmetic of the loop is modelled
by exact rational arithmetic, and the literal `0.1` by `1/10`; the loop with
this exact arithmetic terminates and is insensitive to rounding at the `0.1`
tolerance. `int(a)` truncates toward zero, which on the positive final `a` is
the floor.
-/

/-- The successive values of `a`: `newtonSeq x 0 = 1 + x/2` (C integer
division), and one more loop iteration replaces `a` by `(a + x/a)/2` as long
as the guard `a*a > x + 0.1` holds; once the guard fails the value is kept,
matching loop exit. -/
def newtonSeq (x : ℕ) : ℕ → ℚ
  | 0 => 1 + (x / 2 : ℕ)
  | n + 1 =>
    if (x : ℚ) + 1/10 < newtonSeq x n * newtonSeq x n
    then (newtonSeq x n + x / newtonSeq x n) / 2
    else newtonSeq x n

theorem newtonSeq_pos (x : ℕ) : ∀ n, 0 < newtonSeq x n := by
  intro n
  induction n with
  | zero =>
    show (0 : ℚ) < 1 + (x / 2 : ℕ)
    positivity
  | succ n ih =>
    simp only [newtonSeq]
    split_ifs
    · have hdiv : (0 : ℚ) ≤ (x : ℚ) / newtonSeq x n :=
        div_nonneg (by positivity) ih.le
      linarith
    · exact ih

theorem newtonSeq_sq_ge (x : ℕ) : ∀ n, (x : ℚ) ≤ newtonSeq x n * newtonSeq x n := by
  intro n
  induction n with
  | zero =>
    show (x : ℚ) ≤ (1 + (x / 2 : ℕ)) * (1 + (x / 2 : ℕ))
    have hx : (x : ℚ) ≤ 2 * (x / 2 : ℕ) + 1 := by
      have : x ≤ 2 * (x / 2) + 1 := by omega
      exact_mod_cast this
    nlinarith [Nat.cast_nonneg (α := ℚ) (x / 2)]
  | succ n ih =>
    simp only [newtonSeq]
    split_ifs with hg
    · have ha := newtonSeq_pos x n
      set a := newtonSeq x n with hadef
      have key : (a + x / a) / 2 * ((a + x / a) / 2) - x =
          ((a * a - x) / (2 * a)) * ((a * a - x) / (2 * a)) := by
        field_simp
        ring
      nlinarith [mul_self_nonneg ((a * a - x) / (2 * a))]
    · exact ih

theorem newtonSeq_decrease (x : ℕ) (n : ℕ)
    (hg : (x : ℚ) + 1/10 < newtonSeq x n * newtonSeq x n) :
    newtonSeq x (n + 1) * newtonSeq x (n + 1) + 1/20 ≤ newtonSeq x n * newtonSeq x n := by
  have ha := newtonSeq_pos x n
  have hinv := newtonSeq_sq_ge x n
  have hstep : newtonSeq x (n + 1) = (newtonSeq x n + x / newtonSeq x n) / 2 := by
    simp only [newtonSeq]
    rw [if_pos hg]
  rw [hstep]
  set a := newtonSeq x n with hadef
  have key : (a * a - (a + x / a) / 2 * ((a + x / a) / 2)) * (4 * (a * a)) =
      (a * a - x) * (3 * (a * a) + x) := by
    field_simp
    ring
  have hx0 : (0 : ℚ) ≤ x := Nat.cast_nonneg x
  nlinarith [mul_pos ha ha, sq_nonneg (a * a - x)]

theorem newton_halts (x : ℕ) :
    ∃ n, ¬((x : ℚ) + 1/10 < newtonSeq x n * newtonSeq x n) := by
  by_contra hall
  push_neg at hall
  have hdec : ∀ n, (⌊20 * (newtonSeq x (n + 1) * newtonSeq x (n + 1))⌋).toNat <
      (⌊20 * (newtonSeq x n * newtonSeq x n)⌋).toNat := by
    intro n
    have h1 := newtonSeq_decrease x n (hall n)
    have h2 : 20 * (newtonSeq x (n + 1) * newtonSeq x (n + 1)) + 1 ≤
        20 * (newtonSeq x n * newtonSeq x n) := by linarith
    have h3 : ⌊20 * (newtonSeq x (n + 1) * newtonSeq x (n + 1))⌋ + 1 ≤
        ⌊20 * (newtonSeq x n * newtonSeq x n)⌋ := by
      have := Int.floor_le_floor h2
      rwa [Int.floor_add_one] at this
    have h4 : (0 : ℚ) ≤ 20 * (newtonSeq x (n + 1) * newtonSeq x (n + 1)) := by
      have := newtonSeq_pos x (n + 1)
      positivity
    have h5 : (0 : ℤ) ≤ ⌊20 * (newtonSeq x (n + 1) * newtonSeq x (n + 1))⌋ :=
      Int.floor_nonneg.mpr h4
    omega
  have hbound : ∀ n, (⌊20 * (newtonSeq x n * newtonSeq x n)⌋).toNat + n ≤
      (⌊20 * (newtonSeq x 0 * newtonSeq x 0)⌋).toNat := by
    intro n
    induction n with
    | zero => omega
    | succ n ih =>
      have := hdec n
      omega
  have := hbound ((⌊20 * (newtonSeq x 0 * newtonSeq x 0)⌋).toNat + 1)
  omega

/-- Result of `Solution::mySqrt`: run the loop until the guard `a*a > x+0.1`
fails (the first such index exists by `newton_halts`), then truncate the final
`a` to an integer; the final `a` is positive, so truncation is the floor. -/
def mySqrt (x : ℕ) : ℤ := ⌊newtonSeq x (Nat.find (newton_halts x))⌋

theorem mySqrt_eq_sqrt (x : ℕ) : mySqrt x = Nat.sqrt x := by
  unfold mySqrt
  set N := Nat.find (newton_halts x) with hN
  have hstop : ¬((x : ℚ) + 1/10 < newtonSeq x N * newtonSeq x N) := Nat.find_spec (newton_halts x)
  push_neg at hstop
  have ha := newtonSeq_pos x N
  have hinv := newtonSeq_sq_ge x N
  set a := newtonSeq x N with hadef
  set s := Nat.sqrt x with hs
  have hs1 : (s : ℚ) * s ≤ x := by exact_mod_cast Nat.sqrt_le x
  have hs2 : (x : ℚ) + 1 ≤ (s + 1) * (s + 1) := by
    have := Nat.lt_succ_sqrt x
    have : x + 1 ≤ (s + 1) * (s + 1) := by
      simpa [Nat.succ_eq_add_one] using this
    exact_mod_cast this
  rw [Int.floor_eq_iff]
  constructor
  · push_cast
    nlinarith [Nat.cast_nonneg (α := ℚ) s]
  · push_cast
    nlinarith [Nat.cast_nonneg (α := ℚ) s]

/-! ### LeetCode 441, `Solution::arrangeCoins`

Source:
```
int j=1;
long i=(sqrt( (long long) 8*n+1)-1)/2+1;
while(i*(i+1)/2>n)
{
    i=i-1;
}
return i;
```
`(long long)8*n+1` is the exact integer `8n+1` (the cast binds to `8`, so the
product is computed in 64 bits). The C `sqrt` applied to it is modelled as the
exact square root; the whole initialiser expression is a `double` that gets
truncated on assignment to `long`, and since `trunc((√(8n+1)-1)/2 + 1)` equals
`⌊(√(8n+1)-1)/2⌋ + 1` and taking the floor commutes with the integer
operations `(· - 1)/2` applied after `√`, the initial `i` is
`(Nat.sqrt (8n+1) - 1)/2 + 1`. The variable `j` is unused.
-/

/-- The decrement loop `while (i*(i+1)/2 > n) i = i - 1;`, returning the final
value of `i`. The guard at `i = 0` is `0 > n`, which is false, so the loop
returns `0` there and the value of `i` never goes negative. -/
def coinLoop (n : ℕ) : ℕ → ℕ
  | 0 => 0
  | i + 1 => if n < (i + 1) * (i + 2) / 2 then coinLoop n i else i + 1

/-- The initial estimate `long i = (sqrt((long long)8*n+1)-1)/2+1`. -/
def coinInit (n : ℕ) : ℕ := (Nat.sqrt (8 * n + 1) - 1) / 2 + 1

/-- Result of `Solution::arrangeCoins`. -/
def arrangeCoins (n : ℕ) : ℕ := coinLoop n (coinInit n)

/-- `k` rows fit into `n` coins exactly when `k ≤ (√(8n+1)-1)/2` holds in
truncated integer arithmetic. -/
theorem coin_le_iff (n k : ℕ) :
    k * (k + 1) / 2 ≤ n ↔ k ≤ (Nat.sqrt (8 * n + 1) - 1) / 2 := by
  obtain ⟨m, hm⟩ : ∃ m, k * (k + 1) = m + m := Nat.even_mul_succ_self k
  have hpos : 0 < Nat.sqrt (8 * n + 1) := Nat.sqrt_pos.mpr (by omega)
  constructor
  · intro h
    have h2 : (2 * k + 1) * (2 * k + 1) ≤ 8 * n + 1 := by
      have hsq : (2 * k + 1) * (2 * k + 1) = 4 * (k * (k + 1)) + 1 := by ring
      omega
    have h3 : 2 * k + 1 ≤ Nat.sqrt (8 * n + 1) := Nat.le_sqrt.mpr h2
    omega
  · intro h
    have h3 : 2 * k + 1 ≤ Nat.sqrt (8 * n + 1) := by omega
    have h2 : (2 * k + 1) * (2 * k + 1) ≤ 8 * n + 1 :=
      le_trans (Nat.mul_le_mul h3 h3) (Nat.sqrt_le (8 * n + 1))
    have hsq : (2 * k + 1) * (2 * k + 1) = 4 * (k * (k + 1)) + 1 := by ring
    omega

theorem coinLoop_le (n : ℕ) : ∀ i, coinLoop n i * (coinLoop n i + 1) / 2 ≤ n := by
  intro i
  induction i with
  | zero => simp [coinLoop]
  | succ i ih =>
    simp only [coinLoop]
    split_ifs with hg
    · exact ih
    · have hEq : (i + 1) * (i + 1 + 1) = (i + 1) * (i + 2) := by ring
      rw [hEq]
      omega

theorem coinLoop_ge (n : ℕ) : ∀ i k, k * (k + 1) / 2 ≤ n → k ≤ i → k ≤ coinLoop n i := by
  intro i
  induction i with
  | zero =>
    intro k h hk
    simpa [coinLoop] using hk
  | succ i ih =>
    intro k h hk
    simp only [coinLoop]
    split_ifs with hg
    · apply ih k h
      rcases Nat.lt_or_ge k (i + 1) with hlt | hge
      · omega
      · exfalso
        have hke : k = i + 1 := by omega
        subst hke
        have hEq : (i + 1) * (i + 1 + 1) = (i + 1) * (i + 2) := by ring
        rw [hEq] at h
        omega
    · exact hk

/-- The loop exit value is exactly `(√(8n+1)-1)/2`, the largest `k` with
`k(k+1)/2 ≤ n`. -/
theorem arrangeCoins_eq (n : ℕ) : arrangeCoins n = (Nat.sqrt (8 * n + 1) - 1) / 2 := by
  unfold arrangeCoins coinInit
  apply le_antisymm
  · exact (coin_le_iff n _).mp (coinLoop_le n _)
  · exact coinLoop_ge n _ _ ((coin_le_iff n _).mpr (le_refl _)) (by omega)

/-! ### 64-bit arithmetic -/

/-- Reduction of an ideal integer to a 64-bit signed machine integer
(two's complement wrap-around). A value representable in 64 bits is fixed by
it, so an intermediate computation is overflow-free exactly when `wrap64`
leaves it unchanged. -/
def wrap64 (z : ℤ) : ℤ := (z + 2 ^ 63) % 2 ^ 64 - 2 ^ 63

theorem wrap64_eq_self {z : ℤ} (h1 : -(2 ^ 63) ≤ z) (h2 : z < 2 ^ 63) :
    wrap64 z = z := by
  unfold wrap64
  have hmod : (z + 2 ^ 63) % 2 ^ 64 = z + 2 ^ 63 :=
    Int.emod_eq_of_lt (by omega) (by omega)
  omega

/-! ### Claim theorems -/

/-- C1: for every integer x with 0 ≤ x ≤ 2^31−1, `mySqrt x` is the integer r
with r*r ≤ x < (r+1)*(r+1), i.e. the floor of √x, obtained by the Newton
iteration from a = 1 + x/2 with exit guard a*a ≤ x + 0.1 and final truncation;
in particular mySqrt 4 = 2, mySqrt 8 = 2 and mySqrt 0 = 0. -/
theorem mySqrt_is_integer_sqrt :
    (∀ x : ℕ, x ≤ 2 ^ 31 - 1 →
      mySqrt x * mySqrt x ≤ (x : ℤ) ∧ (x : ℤ) < (mySqrt x + 1) * (mySqrt x + 1)) ∧
    mySqrt 4 = 2 ∧ mySqrt 8 = 2 ∧ mySqrt 0 = 0 := by
  have hmain : ∀ x : ℕ,
      mySqrt x * mySqrt x ≤ (x : ℤ) ∧ (x : ℤ) < (mySqrt x + 1) * (mySqrt x + 1) := by
    intro x
    rw [mySqrt_eq_sqrt]
    constructor
    · exact_mod_cast Nat.sqrt_le x
    · have h := Nat.lt_succ_sqrt x
      have h2 : x < (Nat.sqrt x + 1) * (Nat.sqrt x + 1) := by
        simpa [Nat.succ_eq_add_one] using h
      exact_mod_cast h2
  have h4 : Nat.sqrt 4 = 2 := (Nat.eq_sqrt.mpr (by norm_num)).symm
  have h8 : Nat.sqrt 8 = 2 := (Nat.eq_sqrt.mpr (by norm_num)).symm
  have h0 : Nat.sqrt 0 = 0 := (Nat.eq_sqrt.mpr (by norm_num)).symm
  refine ⟨fun x _ => hmain x, ?_, ?_, ?_⟩
  · rw [mySqrt_eq_sqrt, h4]; rfl
  · rw [mySqrt_eq_sqrt, h8]; rfl
  · rw [mySqrt_eq_sqrt, h0]; rfl

theorem mySqrt_is_integer_sqrt_witness :
    mySqrt 8 * mySqrt 8 ≤ (8 : ℤ) ∧ (8 : ℤ) < (mySqrt 8 + 1) * (mySqrt 8 + 1) :=
  mySqrt_is_integer_sqrt.1 8 (by norm_num)

/-- C2: for every integer n with 0 ≤ n ≤ 2^31−1, k = arrangeCoins n satisfies
k*(k+1)/2 ≤ n < (k+1)*(k+2)/2, i.e. k is the largest integer whose staircase
fits in n coins; in particular arrangeCoins 5 = 2 and arrangeCoins 8 = 3. -/
theorem arrangeCoins_is_max_rows :
    (∀ n : ℕ, n ≤ 2 ^ 31 - 1 →
      arrangeCoins n * (arrangeCoins n + 1) / 2 ≤ n ∧
      n < (arrangeCoins n + 1) * (arrangeCoins n + 2) / 2) ∧
    arrangeCoins 5 = 2 ∧ arrangeCoins 8 = 3 := by
  have hmain : ∀ n : ℕ,
      arrangeCoins n * (arrangeCoins n + 1) / 2 ≤ n ∧
      n < (arrangeCoins n + 1) * (arrangeCoins n + 2) / 2 := by
    intro n
    rw [arrangeCoins_eq]
    set k := (Nat.sqrt (8 * n + 1) - 1) / 2 with hk
    constructor
    · exact (coin_le_iff n k).mpr (le_refl k)
    · have h2 : ¬((k + 1) * ((k + 1) + 1) / 2 ≤ n) := by
        rw [coin_le_iff]
        omega
      have hEq : (k + 1) * ((k + 1) + 1) = (k + 1) * (k + 2) := by ring
      rw [hEq] at h2
      omega
  have h5 : Nat.sqrt 41 = 6 := (Nat.eq_sqrt.mpr (by norm_num)).symm
  have h8 : Nat.sqrt 65 = 8 := (Nat.eq_sqrt.mpr (by norm_num)).symm
  refine ⟨fun n _ => hmain n, ?_, ?_⟩
  · rw [arrangeCoins_eq]
    norm_num [h5]
  · rw [arrangeCoins_eq]
    norm_num [h8]

theorem arrangeCoins_is_max_rows_witness :
    arrangeCoins 5 * (arrangeCoins 5 + 1) / 2 ≤ 5 ∧
      5 < (arrangeCoins 5 + 1) * (arrangeCoins 5 + 2) / 2 :=
  arrangeCoins_is_max_rows.1 5 (by norm_num)

/-- C3: for every n with 1 ≤ n ≤ 2^31−1 and every secret s in [1, n], running
guessNumber(n) against the oracle that compares candidates with s returns s. -/
theorem guessNumber_finds_secret (n s : ℤ) (h1 : 1 ≤ s) (h2 : s ≤ n) :
    guessNumber n s = s := by
  obtain ⟨k, hk, hor⟩ := guess_halts n s h1 h2
  have hfrozen := guessSeq_frozen n s k hor
  have hc : cOf (guessSeq n s k) = s := guessOracle_eq_zero hor
  unfold guessNumber
  have hn : n.toNat = k + (n.toNat - k) := by omega
  rw [hn, hfrozen (n.toNat - k), hc]

theorem guessNumber_finds_secret_witness : guessNumber 5 3 = 3 :=
  guessNumber_finds_secret 5 3 (by norm_num) (by norm_num)

/-- The number of `guess` invocations in a run of `guessNumber(n)` against
secret `s`: the oracle is consulted once per candidate, from index 0 up to and
including the first index whose reply is 0, at which the loop stops. -/
def guessCalls (n s : ℤ) (h : ∃ k, guessOracle s (cOf (guessSeq n s k)) = 0) : ℕ :=
  Nat.find h + 1

/-- C4: for every n with 1 ≤ n ≤ 2^31−1 and every secret s in [1, n], the run
of guessNumber(n) terminates (the oracle eventually replies 0) and the oracle
is invoked at most ⌈log₂ n⌉ + 1 times. -/
theorem guessNumber_terminates_log (n s : ℤ) (h1 : 1 ≤ s) (h2 : s ≤ n) :
    ∃ h : ∃ k, guessOracle s (cOf (guessSeq n s k)) = 0,
      guessCalls n s h ≤ Nat.clog 2 n.toNat + 1 := by
  obtain ⟨k, hk, hor⟩ := guess_halts n s h1 h2
  refine ⟨⟨k, hor⟩, ?_⟩
  unfold guessCalls
  have hsize : ((guessSeq n s 0).2 - (guessSeq n s 0).1).toNat < 2 ^ Nat.clog 2 n.toNat := by
    show (n - 1).toNat < 2 ^ Nat.clog 2 n.toNat
    have hle : n.toNat ≤ 2 ^ Nat.clog 2 n.toNat := Nat.le_pow_clog (by norm_num) _
    omega
  obtain ⟨i, hi, hior⟩ := guessSeq_progress n s h1 h2 (Nat.clog 2 n.toNat) 0 hsize
  rw [Nat.zero_add] at hior
  have hmin : Nat.find (⟨k, hor⟩ : ∃ k, guessOracle s (cOf (guessSeq n s k)) = 0) ≤ i :=
    Nat.find_min' _ hior
  omega

theorem guessNumber_terminates_log_witness :
    ∃ h : ∃ k, guessOracle 3 (cOf (guessSeq 5 3 k)) = 0,
      guessCalls 5 3 h ≤ Nat.clog 2 (5 : ℤ).toNat + 1 :=
  guessNumber_terminates_log 5 3 (by norm_num) (by norm_num)

/-- C5: for every n in [0, 2^31−1] with correct answer k (that is,
k(k+1)/2 ≤ n < (k+1)(k+2)/2), the initial estimate of arrangeCoins is at
least k, the decrement loop never moves below k, and its exit value is
exactly k. -/
theorem arrangeCoins_estimate_invariant (n k : ℕ) (hn : n ≤ 2 ^ 31 - 1)
    (hlo : k * (k + 1) / 2 ≤ n) (hhi : n < (k + 1) * (k + 2) / 2) :
    k ≤ coinInit n ∧ (∀ i, k ≤ i → k ≤ coinLoop n i) ∧ coinLoop n (coinInit n) = k := by
  have hk1 : k ≤ (Nat.sqrt (8 * n + 1) - 1) / 2 := (coin_le_iff n k).mp hlo
  have hk2 : (Nat.sqrt (8 * n + 1) - 1) / 2 ≤ k := by
    by_contra hcon
    push_neg at hcon
    have hstep : (k + 1) * ((k + 1) + 1) / 2 ≤ n := (coin_le_iff n (k + 1)).mpr (by omega)
    have hEq : (k + 1) * ((k + 1) + 1) = (k + 1) * (k + 2) := by ring
    rw [hEq] at hstep
    omega
  refine ⟨?_, ?_, ?_⟩
  · unfold coinInit
    omega
  · intro i hi
    exact coinLoop_ge n i k hlo hi
  · have harr := arrangeCoins_eq n
    unfold arrangeCoins at harr
    omega

theorem arrangeCoins_estimate_invariant_witness :
    2 ≤ coinInit 5 ∧ (∀ i, 2 ≤ i → 2 ≤ coinLoop 5 i) ∧ coinLoop 5 (coinInit 5) = 2 :=
  arrangeCoins_estimate_invariant 5 2 (by norm_num) (by norm_num) (by norm_num)

/-- C6: for every x in [0, 2^31−1], the loop variable a of mySqrt is strictly
positive at every iteration, so the division x/a never divides by zero; this
covers in particular x = 0 and x = 1. -/
theorem mySqrt_no_div_by_zero (x : ℕ) (hx : x ≤ 2 ^ 31 - 1) :
    ∀ n, 0 < newtonSeq x n :=
  fun n => newtonSeq_pos x n

theorem mySqrt_no_div_by_zero_witness :
    0 < newtonSeq 0 1 ∧ 0 < newtonSeq 1 1 :=
  ⟨mySqrt_no_div_by_zero 0 (by norm_num) 1, mySqrt_no_div_by_zero 1 (by norm_num) 1⟩

/-- C7: on the stated domains the wide intermediate computations agree with
exact integer arithmetic (no 64-bit overflow): guessNumber's midpoint
numerator left+right+1 at every iteration, and arrangeCoins' 8*n+1. -/
theorem intermediate_arith_64bit_exact :
    (∀ n s : ℤ, n ≤ 2 ^ 31 - 1 → 1 ≤ s → s ≤ n → ∀ k : ℕ,
      wrap64 ((guessSeq n s k).1 + (guessSeq n s k).2 + 1) =
        (guessSeq n s k).1 + (guessSeq n s k).2 + 1) ∧
    (∀ n : ℕ, n ≤ 2 ^ 31 - 1 → wrap64 (8 * (n : ℤ) + 1) = 8 * (n : ℤ) + 1) := by
  constructor
  · intro n s hn h1 h2 k
    obtain ⟨hl1, hls, hsr, hrn⟩ := guessSeq_inv n s h1 h2 k
    exact wrap64_eq_self (by omega) (by omega)
  · intro n hn
    exact wrap64_eq_self (by omega) (by omega)

theorem intermediate_arith_64bit_exact_witness :
    wrap64 ((guessSeq 5 3 0).1 + (guessSeq 5 3 0).2 + 1) =
      (guessSeq 5 3 0).1 + (guessSeq 5 3 0).2 + 1 :=
  intermediate_arith_64bit_exact.1 5 3 (by norm_num) (by norm_num) (by norm_num) 0

/-- C8: for every x in [0, 2^31−1], the Newton-iteration loop of mySqrt
reaches, after finitely many iterations, a value at which the guard
a*a > x + 0.1 fails, i.e. the loop terminates. -/
theorem mySqrt_loop_terminates (x : ℕ) (hx : x ≤ 2 ^ 31 - 1) :
    ∃ n, ¬((x : ℚ) + 1/10 < newtonSeq x n * newtonSeq x n) :=
  newton_halts x

theorem mySqrt_loop_terminates_witness :
    ∃ n, ¬((8 : ℚ) + 1/10 < newtonSeq 8 n * newtonSeq 8 n) := by
  have h := mySqrt_loop_terminates 8 (by norm_num)
  exact_mod_cast h

/-- C9: the three functions are deterministic: equal inputs (and, for
guessNumber, the same secret behind the oracle) give equal outputs, since the
embedded computations depend on nothing but their arguments. -/
theorem solutions_deterministic :
    (∀ x y : ℕ, x = y → mySqrt x = mySqrt y) ∧
    (∀ n m : ℕ, n = m → arrangeCoins n = arrangeCoins m) ∧
    (∀ n n' s s' : ℤ, n = n' → s = s' → guessNumber n s = guessNumber n' s') := by
  refine ⟨?_, ?_, ?_⟩ <;> intros <;> subst_vars <;> rfl

theorem solutions_deterministic_witness :
    mySqrt 4 = mySqrt 4 ∧ arrangeCoins 5 = arrangeCoins 5 ∧
      guessNumber 5 3 = guessNumber 5 3 :=
  ⟨solutions_deterministic.1 4 4 rfl, solutions_deterministic.2.1 5 5 rfl,
    solutions_deterministic.2.2 5 5 3 3 rfl rfl⟩

/-- C10: for every n with 1 ≤ n ≤ 2^31−1 and secret s in [1, n], every
candidate handed to the oracle stays in range: at each iteration
1 ≤ left ≤ c ≤ right ≤ n and s lies in [left, right]. -/
theorem guessNumber_oracle_calls_in_range (n s : ℤ) (h1 : 1 ≤ s) (h2 : s ≤ n) (k : ℕ) :
    1 ≤ (guessSeq n s k).1 ∧
    (guessSeq n s k).1 ≤ cOf (guessSeq n s k) ∧
    cOf (guessSeq n s k) ≤ (guessSeq n s k).2 ∧
    (guessSeq n s k).2 ≤ n ∧
    (guessSeq n s k).1 ≤ s ∧ s ≤ (guessSeq n s k).2 := by
  obtain ⟨hl1, hls, hsr, hrn⟩ := guessSeq_inv n s h1 h2 k
  unfold cOf
  exact ⟨hl1, by omega, by omega, hrn, hls, hsr⟩

theorem guessNumber_oracle_calls_in_range_witness :
    1 ≤ (guessSeq 5 3 2).1 ∧
    (guessSeq 5 3 2).1 ≤ cOf (guessSeq 5 3 2) ∧
    cOf (guessSeq 5 3 2) ≤ (guessSeq 5 3 2).2 ∧
    (guessSeq 5 3 2).2 ≤ 5 ∧
    (guessSeq 5 3 2).1 ≤ 3 ∧ 3 ≤ (guessSeq 5 3 2).2 :=
  guessNumber_oracle_calls_in_range 5 3 (by norm_num) (by norm_num) 2
